import Mathlib

/-!
Verification development for the elasticsearch filter translation engine
(`lib/elasticsearch-filters.js`): the translator of Mongo-style filter
expressions into Query DSL documents.

JavaScript objects are modelled as association lists of string keys in
insertion order (`Object.entries` order); object assignment updates an
existing key in place and appends a new key at the end, and object spread
folds entries with that assignment, which reproduces the JS `{ ...a, ...b }`
merge semantics.  Prototype-chain lookups of hostile keys (`__proto__`,
`toString`, ...) are outside the modelled fragment: objects are pure
own-property dictionaries.  `throw` is modelled with `Except`; the engine's
own `ElasticSearchError` values are separated from host-language type
errors (a non-string receiver of `toLowerCase`).
-/

/-- A JSON-compatible JavaScript value. -/
inductive JsonVal where
  | str (s : String)
  | num (n : Int)
  | bool (b : Bool)
  | null
  | arr (elems : List JsonVal)
  | obj (entries : List (String × JsonVal))
deriving Repr, BEq

/-- The result of the JS `typeof` operator on a modelled value
(arrays and `null` are `"object"` in JS). -/
def typeofStr : JsonVal → String
  | .str _ => "string"
  | .num _ => "number"
  | .bool _ => "boolean"
  | .null => "object"
  | .arr _ => "object"
  | .obj _ => "object"

/-- Is the value a JS array (`Array.isArray`)? -/
def isArr : JsonVal → Bool
  | .arr _ => true
  | _ => false

/-- Is the value a JS string? -/
def isStr : JsonVal → Bool
  | .str _ => true
  | _ => false

/-- ASCII single quote, used to rebuild the JS template-string messages. -/
def quoteCh : String := String.singleton (Char.ofNat 39)

/-- JS `String.prototype.toLowerCase` (ASCII-faithful). -/
def jsToLower (s : String) : String := ⟨s.data.map Char.toLower⟩

/-- JS `key.includes` applied to the dollar marker. -/
def hasDollar (s : String) : Bool := s.data.any (fun c => c = '$')

/-- Drop the first occurrence of `'$'` from a character list. -/
def removeFirstDollarAux : List Char → List Char
  | [] => []
  | c :: cs => if c = '$' then cs else c :: removeFirstDollarAux cs

/-- JS `key.replace(dollar, empty)`: removes only the first `'$'`. -/
def removeFirstDollar (s : String) : String := ⟨removeFirstDollarAux s.data⟩

/-- Property read `m[k]` on an own-property dictionary. -/
def objGet {α : Type} : List (String × α) → String → Option α
  | [], _ => none
  | p :: ps, k => if p.1 = k then some p.2 else objGet ps k

/-- Property write `m[k] = v`: update an existing key in place, else append. -/
def objSet {α : Type} : List (String × α) → String → α → List (String × α)
  | [], k, v => [(k, v)]
  | p :: ps, k, v => if p.1 = k then (k, v) :: ps else p :: objSet ps k v

/-- The own enumerable entries a value contributes under JS object spread:
objects give their entries, arrays and strings their indexed elements,
primitives nothing. -/
def spreadEntries : JsonVal → List (String × JsonVal)
  | .obj es => es
  | .arr xs => xs.enum.map (fun p => (toString p.1, p.2))
  | .str s => s.data.enum.map (fun p => (toString p.1, JsonVal.str (String.singleton p.2)))
  | _ => []

/-- JS `{ ...base, ...v }`: fold the spread entries of `v` over `base`. -/
def objSpread (base : List (String × JsonVal)) (v : JsonVal) : List (String × JsonVal) :=
  (spreadEntries v).foldl (fun m p => objSet m p.1 p.2) base

/-- One iteration of the `_prepareFilters` loop: a key without `'$'` is
rewritten to `$eq` with the original key as field, the marker is stripped,
and the entry is spread-merged into the accumulator at the canonical name. -/
def prepareStep (acc : List (String × List (String × JsonVal))) (kv : String × JsonVal) :
    List (String × List (String × JsonVal)) :=
  let pair := if hasDollar kv.1 then kv else ("$eq", JsonVal.obj [(kv.1, kv.2)])
  let operator := removeFirstDollar pair.1
  objSet acc operator (objSpread ((objGet acc operator).getD []) pair.2)

/-- The `_prepareFilters` normalization of a raw filter expression into the
operator → field → value map. -/
def prepareFilters (entries : List (String × JsonVal)) : List (String × List (String × JsonVal)) :=
  entries.foldl prepareStep []

/-- The two error codes of `ElasticSearchError` used by the filters builder. -/
inductive ESErrorCode where
  | invalidFilters
  | invalidFilterOperator
deriving Repr, DecidableEq

/-- An `ElasticSearchError`: message and code. -/
structure ESError where
  message : String
  code : ESErrorCode
deriving Repr, DecidableEq

/-- A thrown JS exception: either the engine's own error class or a host
`TypeError` (calling `toLowerCase` on a non-string). -/
inductive JsError where
  | es (e : ESError)
  | typeError (msg : String)
deriving Repr, DecidableEq

/-- Is the exception an `ElasticSearchError`? -/
def isEsError : JsError → Bool
  | .es _ => true
  | .typeError _ => false

/-- Is the exception an `ElasticSearchError` with code `INVALID_FILTERS`? -/
def isInvalidFiltersCoded : JsError → Bool
  | .es e => e.code = ESErrorCode.invalidFilters
  | .typeError _ => false

/-- The `bool` node of the accumulator: lazily created `must` / `must_not`. -/
structure BoolNode where
  must : Option (List JsonVal) := none
  must_not : Option (List JsonVal) := none
deriving Repr

/-- The shared accumulator `parsedFilters` mutated by the clause builders. -/
structure ParsedFilters where
  bool : Option BoolNode := none
  range : Option (List (String × List (String × JsonVal))) := none
deriving Repr

/-- Lazily create `bool` and `bool.must` and push a clause, as in
`parsedFilters.bool = parsedFilters.bool || ...` followed by a push. -/
def pushMust (pf : ParsedFilters) (c : JsonVal) : ParsedFilters :=
  let b := pf.bool.getD {}
  { pf with bool := some { b with must := some (b.must.getD [] ++ [c]) } }

/-- Lazily create `bool.must_not` and push a clause. -/
def pushMustNot (pf : ParsedFilters) (c : JsonVal) : ParsedFilters :=
  let b := pf.bool.getD {}
  { pf with bool := some { b with must_not := some (b.must_not.getD [] ++ [c]) } }

/-- The builder `_formatEq`: push a term clause keyed `field + ".raw"` onto `bool.must`. -/
def formatEq (pf : ParsedFilters) (field : String) (value : JsonVal) : ParsedFilters :=
  pushMust pf (.obj [("term", .obj [(field ++ ".raw", value)])])

/-- The builder `_formatNe`: push the same term clause onto `bool.must_not`. -/
def formatNe (pf : ParsedFilters) (field : String) (value : JsonVal) : ParsedFilters :=
  pushMustNot pf (.obj [("term", .obj [(field ++ ".raw", value)])])

/-- JS `value.map(keyword => keyword.toLowerCase())`: left-to-right, the first
non-string element throws a host `TypeError`. -/
def lowerElems : List JsonVal → Except JsError (List JsonVal)
  | [] => .ok []
  | v :: l =>
    match v with
    | .str s =>
      match lowerElems l with
      | .ok ys => .ok (.str (jsToLower s) :: ys)
      | .error e => .error e
    | _ => .error (.typeError "keyword.toLowerCase is not a function")

/-- The message of the array-shape error thrown by `_formatIn`. -/
def inOpMessage (tn : String) : String :=
  "Invalid filter: $in operator expects an array but received " ++ quoteCh ++ tn ++ quoteCh ++ "."

/-- The message of the array-shape error thrown by `_formatNin`. -/
def ninOpMessage (tn : String) : String :=
  "Invalid filter: $nin operator expects an array but received " ++ quoteCh ++ tn ++ quoteCh ++ "."

/-- The builder `_formatIn`: a non-array value throws `InvalidFilters`;
otherwise push a terms clause with the lower-cased elements onto `bool.must`. -/
def formatIn (pf : ParsedFilters) (field : String) (value : JsonVal) :
    Except JsError ParsedFilters :=
  match value with
  | .arr xs =>
    match lowerElems xs with
    | .ok ys => .ok (pushMust pf (.obj [("terms", .obj [(field, .arr ys)])]))
    | .error e => .error e
  | w => .error (.es ⟨inOpMessage (typeofStr w), .invalidFilters⟩)

/-- The builder `_formatNin`: like `_formatIn` but pushes onto `bool.must_not`. -/
def formatNin (pf : ParsedFilters) (field : String) (value : JsonVal) :
    Except JsError ParsedFilters :=
  match value with
  | .arr xs =>
    match lowerElems xs with
    | .ok ys => .ok (pushMustNot pf (.obj [("terms", .obj [(field, .arr ys)])]))
    | .error e => .error e
  | w => .error (.es ⟨ninOpMessage (typeofStr w), .invalidFilters⟩)

/-- Assignment `range[field][op] = value` with lazy creation of `range`
and `range[field]`. -/
def setRange (pf : ParsedFilters) (field op : String) (value : JsonVal) : ParsedFilters :=
  let r := pf.range.getD []
  { pf with range := some (objSet r field (objSet ((objGet r field).getD []) op value)) }

/-- The builder `_formatGt`. -/
def formatGt (pf : ParsedFilters) (field : String) (value : JsonVal) : ParsedFilters :=
  setRange pf field "gt" value

/-- The builder `_formatGte`. -/
def formatGte (pf : ParsedFilters) (field : String) (value : JsonVal) : ParsedFilters :=
  setRange pf field "gte" value

/-- The builder `_formatLt`. -/
def formatLt (pf : ParsedFilters) (field : String) (value : JsonVal) : ParsedFilters :=
  setRange pf field "lt" value

/-- The builder `_formatLte`. -/
def formatLte (pf : ParsedFilters) (field : String) (value : JsonVal) : ParsedFilters :=
  setRange pf field "lte" value

/-- The message of the unknown-operator error. -/
def invalidOperatorMessage (op : String) : String :=
  quoteCh ++ op ++ quoteCh ++ " is not a valid filter operator."

/-- Apply `_formatIn` to each field entry in order, stopping at a throw. -/
def applyIn (pf : ParsedFilters) : List (String × JsonVal) → Except JsError ParsedFilters
  | [] => .ok pf
  | p :: l =>
    match formatIn pf p.1 p.2 with
    | .ok pf' => applyIn pf' l
    | .error e => .error e

/-- Apply `_formatNin` to each field entry in order, stopping at a throw. -/
def applyNin (pf : ParsedFilters) : List (String × JsonVal) → Except JsError ParsedFilters
  | [] => .ok pf
  | p :: l =>
    match formatNin pf p.1 p.2 with
    | .ok pf' => applyNin pf' l
    | .error e => .error e

/-- The dispatcher `_formatByOperator`: dispatch on the canonical operator name, throwing
`InvalidFilterOperator` for an unknown token, then apply the builder to
every field entry of the operator. -/
def formatByOperator (pf : ParsedFilters) (operator : String)
    (fields : List (String × JsonVal)) : Except JsError ParsedFilters :=
  if operator = "eq" then .ok (fields.foldl (fun a p => formatEq a p.1 p.2) pf)
  else if operator = "ne" then .ok (fields.foldl (fun a p => formatNe a p.1 p.2) pf)
  else if operator = "in" then applyIn pf fields
  else if operator = "nin" then applyNin pf fields
  else if operator = "gt" then .ok (fields.foldl (fun a p => formatGt a p.1 p.2) pf)
  else if operator = "gte" then .ok (fields.foldl (fun a p => formatGte a p.1 p.2) pf)
  else if operator = "lt" then .ok (fields.foldl (fun a p => formatLt a p.1 p.2) pf)
  else if operator = "lte" then .ok (fields.foldl (fun a p => formatLte a p.1 p.2) pf)
  else .error (.es ⟨invalidOperatorMessage operator, .invalidFilterOperator⟩)

/-- The `getFilters` loop over the normalized operator map. -/
def applyOperators (pf : ParsedFilters) :
    List (String × List (String × JsonVal)) → Except JsError ParsedFilters
  | [] => .ok pf
  | p :: l =>
    match formatByOperator pf p.1 p.2 with
    | .ok pf' => applyOperators pf' l
    | .error e => .error e

/-- The bool/range conflict resolution: when both keys exist, wrap the range
map as a `{ range: ... }` clause, push it onto `bool.must` (created lazily)
and delete the top-level `range` key. -/
def resolveConflict (pf : ParsedFilters) : ParsedFilters :=
  match pf.bool, pf.range with
  | some b, some r =>
    { bool := some { b with
        must := some (b.must.getD [] ++
          [JsonVal.obj [("range", JsonVal.obj (r.map (fun p => (p.1, JsonVal.obj p.2))))]]) },
      range := none }
  | _, _ => pf

/-- Render the accumulator back into a JSON object (the `range` map nests its
per-field objects). -/
def renderParsed (pf : ParsedFilters) : JsonVal :=
  .obj
    ((match pf.bool with
      | some b =>
        [("bool", JsonVal.obj
          ((match b.must with
            | some m => [("must", JsonVal.arr m)]
            | none => []) ++
           (match b.must_not with
            | some m => [("must_not", JsonVal.arr m)]
            | none => [])))]
      | none => []) ++
     (match pf.range with
      | some r => [("range", JsonVal.obj (r.map (fun p => (p.1, JsonVal.obj p.2))))]
      | none => []))

/-- Is the call argument a plain (non-array, non-null) object? -/
def isPlainObject : Option JsonVal → Bool
  | some (.obj _) => true
  | _ => false

/-- The entry point `getFilters(filters)`: validate the shape, normalize, dispatch every
operator, resolve the bool/range conflict, and wrap as `{ query: ... }`.
`none` models an absent argument. -/
def getFilters : Option JsonVal → Except JsError JsonVal
  | some (.obj entries) =>
    match applyOperators {} (prepareFilters entries) with
    | .ok pf => .ok (.obj [("query", renderParsed (resolveConflict pf))])
    | .error e => .error e
  | _ => .error (.es ⟨"Invalid filters", .invalidFilters⟩)

/-- Modelled from the spec: the model-aware field-type resolution of the
final `lib/elasticsearch-filters.js` is not among the provided sources (only
its unit test and a changelog note are).  A model descriptor exposes the
sortable/filterable field names, each either a bare flag or annotated with a
declared datatype (spec section 6). -/
inductive FieldDef where
  | flag
  | typed (t : String)
deriving Repr, DecidableEq

/-- Modelled from the spec: the sortable/filterable field set of a model
descriptor, as an own-property dictionary from field name to definition. -/
def ModelDescriptor : Type := List (String × FieldDef)

/-- Membership of a field in the model descriptor's filterable-field set. -/
def sortableContains (m : ModelDescriptor) (field : String) : Bool :=
  m.any (fun p => p.1 = field)

/-- Modelled from the spec: `resolveSuffix` returns `"raw"` if the field is
listed in the model's filterable-field set (explicit membership, regardless
of declared type), otherwise `"keyword"` (spec section 4.1). -/
def resolveSuffix (m : ModelDescriptor) (field : String) : String :=
  if sortableContains m field then "raw" else "keyword"

/-- Modelled from the spec: the model-aware `_formatEq` pushes
`{ term: { [field + "." + suffix]: value } }` onto `bool.must`, with the
suffix chosen by `resolveSuffix` (spec sections 4.1 and 4.3). -/
def formatEqM (m : ModelDescriptor) (pf : ParsedFilters) (field : String) (value : JsonVal) :
    ParsedFilters :=
  pushMust pf (.obj [("term", .obj [(field ++ "." ++ resolveSuffix m field, value)])])

/-- Modelled from the spec: the model-aware `_formatNe` pushes the same
suffixed term clause onto `bool.must_not`. -/
def formatNeM (m : ModelDescriptor) (pf : ParsedFilters) (field : String) (value : JsonVal) :
    ParsedFilters :=
  pushMustNot pf (.obj [("term", .obj [(field ++ "." ++ resolveSuffix m field, value)])])

/-- Modelled from the spec: the model-aware operator dispatch; only the
`eq`/`ne` builders differ from the sourced version (they consult the model
descriptor for the suffix). -/
def formatByOperatorM (m : ModelDescriptor) (pf : ParsedFilters) (operator : String)
    (fields : List (String × JsonVal)) : Except JsError ParsedFilters :=
  if operator = "eq" then .ok (fields.foldl (fun a p => formatEqM m a p.1 p.2) pf)
  else if operator = "ne" then .ok (fields.foldl (fun a p => formatNeM m a p.1 p.2) pf)
  else if operator = "in" then applyIn pf fields
  else if operator = "nin" then applyNin pf fields
  else if operator = "gt" then .ok (fields.foldl (fun a p => formatGt a p.1 p.2) pf)
  else if operator = "gte" then .ok (fields.foldl (fun a p => formatGte a p.1 p.2) pf)
  else if operator = "lt" then .ok (fields.foldl (fun a p => formatLt a p.1 p.2) pf)
  else if operator = "lte" then .ok (fields.foldl (fun a p => formatLte a p.1 p.2) pf)
  else .error (.es ⟨invalidOperatorMessage operator, .invalidFilterOperator⟩)

/-- Loop of the model-aware entry point over the normalized operator map. -/
def applyOperatorsM (m : ModelDescriptor) (pf : ParsedFilters) :
    List (String × List (String × JsonVal)) → Except JsError ParsedFilters
  | [] => .ok pf
  | p :: l =>
    match formatByOperatorM m pf p.1 p.2 with
    | .ok pf' => applyOperatorsM m pf' l
    | .error e => .error e

/-- Modelled from the spec: the model-aware public entry point
`getFilters(model, filterExpression)` (spec section 4.4); identical to the
sourced `getFilters` except that clause building consults the model. -/
def getFiltersM (m : ModelDescriptor) : Option JsonVal → Except JsError JsonVal
  | some (.obj entries) =>
    match applyOperatorsM m {} (prepareFilters entries) with
    | .ok pf => .ok (.obj [("query", renderParsed (resolveConflict pf))])
    | .error e => .error e
  | _ => .error (.es ⟨"Invalid filters", .invalidFilters⟩)

/-- The model descriptor of the repository's filters unit test:
`{ id: true, value: true, othervalue: { type: integer } }`. -/
def testModel : ModelDescriptor :=
  [("id", .flag), ("value", .flag), ("othervalue", .typed "integer")]

/-- First-defined alternative on options (left value wins when present). -/
def oFirst {α : Type} : Option α → Option α → Option α
  | some a, _ => some a
  | none, b => b

/-- Value of the last entry of an association list carrying a given key. -/
def lastIn {α : Type} (l : List (String × α)) (g : String) : Option α :=
  l.foldl (fun x p => if p.1 = g then some p.2 else x) none

/-- The canonical contribution of one raw filter entry: its canonical
operator name and the field/value pairs it spreads into that operator. -/
def normalizedContribs (kv : String × JsonVal) : String × List (String × JsonVal) :=
  if hasDollar kv.1 then (removeFirstDollar kv.1, spreadEntries kv.2)
  else ("eq", [(kv.1, kv.2)])

/-- The value contributed to a given (operator, field) slot by the last raw
entry that touches that slot, scanning the expression left to right. -/
def lastContribution (entries : List (String × JsonVal)) (op f : String) : Option JsonVal :=
  entries.foldl
    (fun a kv =>
      if (normalizedContribs kv).1 = op then
        (normalizedContribs kv).2.foldl (fun b p => if p.1 = f then some p.2 else b) a
      else a)
    none

/-- Field lookup inside the normalized operator map. -/
def normGet (m : List (String × List (String × JsonVal))) (op f : String) : Option JsonVal :=
  objGet ((objGet m op).getD []) f

/-- Is the value an array all of whose elements are strings? -/
def isStrArr : JsonVal → Bool
  | .arr xs => xs.all isStr
  | _ => false

/-- Does the value avoid the lower-casing type error: any non-array, or an
array whose elements are all strings? -/
def noBadElem : JsonVal → Bool
  | .arr xs => xs.all isStr
  | _ => true

/-- Is the canonical operator name one of the eight recognized tokens? -/
def isKnownOp (op : String) : Bool :=
  op == "eq" || (op == "ne" || (op == "in" || (op == "nin" ||
    (op == "gt" || (op == "gte" || (op == "lt" || op == "lte"))))))

/-- A normalized operator entry whose dispatch is guaranteed to succeed:
known operator, and for in/nin all per-field values are string arrays. -/
def builderOk (p : String × List (String × JsonVal)) : Bool :=
  isKnownOp p.1 &&
    (if p.1 == "in" || p.1 == "nin" then p.2.all (fun q => isStrArr q.2) else true)

/-- Top-level key list of a JSON object (other values have none). -/
def keyList : JsonVal → List String
  | .obj es => es.map Prod.fst
  | _ => []

/-- Does the JSON object carry the given top-level key? -/
def hasKey (j : JsonVal) (k : String) : Bool := (keyList j).any (fun x => x = k)

/-- Lookup of a range bound inside the accumulator. -/
def rangeLookup (pf : ParsedFilters) (field op : String) : Option JsonVal :=
  objGet ((objGet (pf.range.getD []) field).getD []) op

/-- Does every in/nin per-field array value of the normalized expression
contain only strings (so that lower-casing cannot raise a type error)? -/
def wellTypedElems : Option JsonVal → Bool
  | some (.obj entries) =>
    (prepareFilters entries).all (fun p =>
      if p.1 == "in" || p.1 == "nin" then p.2.all (fun q => noBadElem q.2) else true)
  | _ => true

theorem oFirst_none {α : Type} (b : Option α) : oFirst none b = b := rfl

theorem oFirst_some {α : Type} (a : α) (b : Option α) : oFirst (some a) b = some a := rfl

theorem objGet_objSet {α : Type} (m : List (String × α)) (k : String) (v : α) (g : String) :
    objGet (objSet m k v) g = if g = k then some v else objGet m g := by
  induction m with
  | nil =>
    rcases eq_or_ne g k with h | h
    · subst h; simp [objSet, objGet]
    · simp [objSet, objGet, if_neg h, if_neg (Ne.symm h)]
  | cons p ps ih =>
    rcases eq_or_ne p.1 k with hpk | hpk
    · rcases eq_or_ne g k with hgk | hgk
      · subst hgk; simp [objSet, objGet, hpk]
      · have hpg : p.1 ≠ g := by rw [hpk]; exact Ne.symm hgk
        simp [objSet, objGet, hpk, if_neg hgk, if_neg (Ne.symm hgk), if_neg hpg]
    · rcases eq_or_ne p.1 g with hpg | hpg
      · have hgk : g ≠ k := fun h => hpk (hpg.trans h)
        simp [objSet, objGet, hpk, hpg, if_neg hgk]
      · simp [objSet, objGet, hpk, hpg, ih]

theorem objGet_objSet_self {α : Type} (m : List (String × α)) (k : String) (v : α) :
    objGet (objSet m k v) k = some v := by
  rw [objGet_objSet]; simp

theorem objGet_objSet_other {α : Type} (m : List (String × α)) (k : String) (v : α) (g : String)
    (h : g ≠ k) : objGet (objSet m k v) g = objGet m g := by
  rw [objGet_objSet]; simp [h]

theorem lastIn_init {α : Type} (l : List (String × α)) (a : Option α) (g : String) :
    l.foldl (fun x p => if p.1 = g then some p.2 else x) a = oFirst (lastIn l g) a := by
  induction l generalizing a with
  | nil => simp [lastIn, oFirst]
  | cons p ps ih =>
    rw [List.foldl_cons, ih]
    have h2 : lastIn (p :: ps) g = oFirst (lastIn ps g) (if p.1 = g then some p.2 else none) := by
      simp only [lastIn, List.foldl_cons]
      rw [ih]
      rfl
    rw [h2]
    cases h : lastIn ps g with
    | some x => simp [oFirst]
    | none =>
      by_cases hp : p.1 = g <;> simp [oFirst, hp]

theorem objGet_spreadFold {α : Type} (l : List (String × α)) (base : List (String × α))
    (g : String) :
    objGet (l.foldl (fun m p => objSet m p.1 p.2) base) g =
      oFirst (lastIn l g) (objGet base g) := by
  induction l generalizing base with
  | nil => simp [lastIn, oFirst]
  | cons p ps ih =>
    rw [List.foldl_cons, ih, objGet_objSet]
    have h2 : lastIn (p :: ps) g = oFirst (lastIn ps g) (if p.1 = g then some p.2 else none) := by
      simp only [lastIn, List.foldl_cons]
      rw [lastIn_init]
      rfl
    rw [h2]
    cases h : lastIn ps g with
    | some x => simp [oFirst]
    | none =>
      by_cases hp : p.1 = g
      · simp [oFirst, hp, if_pos hp.symm]
      · simp [oFirst, hp, if_neg (Ne.symm hp)]

theorem normGet_prepareStep (acc : List (String × List (String × JsonVal)))
    (kv : String × JsonVal) (op f : String) :
    normGet (prepareStep acc kv) op f =
      oFirst (if (normalizedContribs kv).1 = op then lastIn (normalizedContribs kv).2 f else none)
        (normGet acc op f) := by
  have hstrip : removeFirstDollar "$eq" = "eq" := rfl
  by_cases hd : hasDollar kv.1
  · by_cases hop : removeFirstDollar kv.1 = op
    · subst hop
      simp [prepareStep, normGet, normalizedContribs, hd, objGet_objSet_self, objSpread,
        objGet_spreadFold]
    · have h2 : op ≠ removeFirstDollar kv.1 := fun h => hop h.symm
      simp [prepareStep, normGet, normalizedContribs, hd, hop,
        objGet_objSet_other _ _ _ _ h2, oFirst]
  · by_cases hop : ("eq" : String) = op
    · subst hop
      simp only [prepareStep, normGet, normalizedContribs, hd, hstrip, Bool.false_eq_true,
        if_false, if_true, eq_self_iff_true, objGet_objSet_self, Option.getD_some, objSpread,
        spreadEntries]
      rw [objGet_spreadFold]
    · have h2 : op ≠ "eq" := fun h => hop h.symm
      simp [prepareStep, normGet, normalizedContribs, hd, hop, hstrip,
        objGet_objSet_other _ _ _ _ h2, oFirst]

theorem oFirst_assoc {α : Type} (a b c : Option α) :
    oFirst a (oFirst b c) = oFirst (oFirst a b) c := by
  cases a <;> cases b <;> simp [oFirst]

theorem lastContribution_init (l : List (String × JsonVal)) (a : Option JsonVal) (op f : String) :
    l.foldl
      (fun a kv =>
        if (normalizedContribs kv).1 = op then
          (normalizedContribs kv).2.foldl (fun b p => if p.1 = f then some p.2 else b) a
        else a)
      a = oFirst (lastContribution l op f) a := by
  induction l generalizing a with
  | nil => simp [lastContribution, oFirst]
  | cons kv l ih =>
    rw [List.foldl_cons, ih]
    have h2 : lastContribution (kv :: l) op f =
        oFirst (lastContribution l op f)
          (if (normalizedContribs kv).1 = op then lastIn (normalizedContribs kv).2 f else none) := by
      simp only [lastContribution, List.foldl_cons]
      rw [ih]
      by_cases hc : (normalizedContribs kv).1 = op
      · simp only [hc, if_true]
        rfl
      · simp only [hc, if_false]
        rfl
    rw [h2]
    by_cases hc : (normalizedContribs kv).1 = op
    · simp only [hc, if_true]
      rw [lastIn_init, oFirst_assoc]
    · simp only [hc, if_false]
      cases lastContribution l op f <;> simp [oFirst]

theorem normGet_prepareFrom (entries : List (String × JsonVal))
    (acc : List (String × List (String × JsonVal))) (op f : String) :
    normGet (entries.foldl prepareStep acc) op f =
      oFirst (lastContribution entries op f) (normGet acc op f) := by
  induction entries generalizing acc with
  | nil => simp [lastContribution, oFirst]
  | cons kv l ih =>
    rw [List.foldl_cons, ih, normGet_prepareStep]
    have h2 : lastContribution (kv :: l) op f =
        oFirst (lastContribution l op f)
          (if (normalizedContribs kv).1 = op then lastIn (normalizedContribs kv).2 f else none) := by
      simp only [lastContribution, List.foldl_cons]
      rw [lastContribution_init]
      by_cases hc : (normalizedContribs kv).1 = op
      · simp only [hc, if_true]
        rfl
      · simp only [hc, if_false]
        rfl
    rw [h2, oFirst_assoc]

theorem lowerElems_ok (xs : List JsonVal) (h : xs.all isStr = true) :
    ∃ ys, lowerElems xs = .ok ys := by
  induction xs with
  | nil => exact ⟨[], rfl⟩
  | cons v l ih =>
    simp only [List.all_cons, Bool.and_eq_true] at h
    obtain ⟨hv, hl⟩ := h
    obtain ⟨ys, hys⟩ := ih hl
    cases v with
    | str s => exact ⟨.str (jsToLower s) :: ys, by simp [lowerElems, hys]⟩
    | num n => simp [isStr] at hv
    | bool b => simp [isStr] at hv
    | null => simp [isStr] at hv
    | arr a => simp [isStr] at hv
    | obj o => simp [isStr] at hv

theorem lowerElems_err (xs : List JsonVal) :
    ∀ e : JsError, lowerElems xs = .error e → ∃ msg, e = .typeError msg := by
  induction xs with
  | nil => intro e h; simp [lowerElems] at h
  | cons v l ih =>
    intro e h
    cases v with
    | str s =>
      simp only [lowerElems] at h
      cases hl : lowerElems l with
      | ok ys => rw [hl] at h; simp at h
      | error e2 =>
        rw [hl] at h
        simp only [Except.error.injEq] at h
        exact h ▸ ih e2 hl
    | num n => exact ⟨_, by simpa [lowerElems] using h.symm⟩
    | bool b => exact ⟨_, by simpa [lowerElems] using h.symm⟩
    | null => exact ⟨_, by simpa [lowerElems] using h.symm⟩
    | arr a => exact ⟨_, by simpa [lowerElems] using h.symm⟩
    | obj o => exact ⟨_, by simpa [lowerElems] using h.symm⟩

theorem formatIn_not_arr (pf : ParsedFilters) (f : String) (v : JsonVal)
    (h : isArr v = false) :
    formatIn pf f v = .error (.es ⟨inOpMessage (typeofStr v), .invalidFilters⟩) := by
  cases v <;> first | rfl | simp [isArr] at h

theorem formatNin_not_arr (pf : ParsedFilters) (f : String) (v : JsonVal)
    (h : isArr v = false) :
    formatNin pf f v = .error (.es ⟨ninOpMessage (typeofStr v), .invalidFilters⟩) := by
  cases v <;> first | rfl | simp [isArr] at h

theorem formatIn_err (pf : ParsedFilters) (f : String) (v : JsonVal) (e : JsError)
    (h : formatIn pf f v = .error e) :
    (isArr v = false ∧ e = .es ⟨inOpMessage (typeofStr v), .invalidFilters⟩) ∨
      ∃ msg, e = .typeError msg := by
  cases v with
  | arr xs =>
    simp only [formatIn] at h
    cases hl : lowerElems xs with
    | ok ys => rw [hl] at h; simp at h
    | error e2 =>
      rw [hl] at h
      simp at h
      exact Or.inr (h ▸ lowerElems_err xs e2 hl)
  | str s => exact Or.inl ⟨rfl, by simpa [formatIn] using h.symm⟩
  | num n => exact Or.inl ⟨rfl, by simpa [formatIn] using h.symm⟩
  | bool b => exact Or.inl ⟨rfl, by simpa [formatIn] using h.symm⟩
  | null => exact Or.inl ⟨rfl, by simpa [formatIn] using h.symm⟩
  | obj o => exact Or.inl ⟨rfl, by simpa [formatIn] using h.symm⟩

theorem formatNin_err (pf : ParsedFilters) (f : String) (v : JsonVal) (e : JsError)
    (h : formatNin pf f v = .error e) :
    (isArr v = false ∧ e = .es ⟨ninOpMessage (typeofStr v), .invalidFilters⟩) ∨
      ∃ msg, e = .typeError msg := by
  cases v with
  | arr xs =>
    simp only [formatNin] at h
    cases hl : lowerElems xs with
    | ok ys => rw [hl] at h; simp at h
    | error e2 =>
      rw [hl] at h
      simp at h
      exact Or.inr (h ▸ lowerElems_err xs e2 hl)
  | str s => exact Or.inl ⟨rfl, by simpa [formatNin] using h.symm⟩
  | num n => exact Or.inl ⟨rfl, by simpa [formatNin] using h.symm⟩
  | bool b => exact Or.inl ⟨rfl, by simpa [formatNin] using h.symm⟩
  | null => exact Or.inl ⟨rfl, by simpa [formatNin] using h.symm⟩
  | obj o => exact Or.inl ⟨rfl, by simpa [formatNin] using h.symm⟩

theorem formatIn_ok_strarr (pf : ParsedFilters) (f : String) (v : JsonVal)
    (h : isStrArr v = true) : ∃ pf2, formatIn pf f v = .ok pf2 := by
  cases v with
  | arr xs =>
    obtain ⟨ys, hys⟩ := lowerElems_ok xs (by simpa [isStrArr] using h)
    exact ⟨pushMust pf (.obj [("terms", .obj [(f, .arr ys)])]), by simp [formatIn, hys]⟩
  | str s => simp [isStrArr] at h
  | num n => simp [isStrArr] at h
  | bool b => simp [isStrArr] at h
  | null => simp [isStrArr] at h
  | obj o => simp [isStrArr] at h

theorem formatNin_ok_strarr (pf : ParsedFilters) (f : String) (v : JsonVal)
    (h : isStrArr v = true) : ∃ pf2, formatNin pf f v = .ok pf2 := by
  cases v with
  | arr xs =>
    obtain ⟨ys, hys⟩ := lowerElems_ok xs (by simpa [isStrArr] using h)
    exact ⟨pushMustNot pf (.obj [("terms", .obj [(f, .arr ys)])]), by simp [formatNin, hys]⟩
  | str s => simp [isStrArr] at h
  | num n => simp [isStrArr] at h
  | bool b => simp [isStrArr] at h
  | null => simp [isStrArr] at h
  | obj o => simp [isStrArr] at h

theorem applyIn_ok (fields : List (String × JsonVal)) :
    ∀ pf : ParsedFilters, (∀ q ∈ fields, isStrArr q.2 = true) →
      ∃ pf2, applyIn pf fields = .ok pf2 := by
  induction fields with
  | nil => intro pf _; exact ⟨pf, rfl⟩
  | cons q l ih =>
    intro pf h
    obtain ⟨pf2, h2⟩ := formatIn_ok_strarr pf q.1 q.2 (h q (List.mem_cons_self q l))
    obtain ⟨pf3, h3⟩ := ih pf2 (fun r hr => h r (List.mem_cons_of_mem q hr))
    exact ⟨pf3, by simp [applyIn, h2, h3]⟩

theorem applyNin_ok (fields : List (String × JsonVal)) :
    ∀ pf : ParsedFilters, (∀ q ∈ fields, isStrArr q.2 = true) →
      ∃ pf2, applyNin pf fields = .ok pf2 := by
  induction fields with
  | nil => intro pf _; exact ⟨pf, rfl⟩
  | cons q l ih =>
    intro pf h
    obtain ⟨pf2, h2⟩ := formatNin_ok_strarr pf q.1 q.2 (h q (List.mem_cons_self q l))
    obtain ⟨pf3, h3⟩ := ih pf2 (fun r hr => h r (List.mem_cons_of_mem q hr))
    exact ⟨pf3, by simp [applyNin, h2, h3]⟩

theorem applyIn_err (fields : List (String × JsonVal)) :
    ∀ (pf : ParsedFilters) (e : JsError), applyIn pf fields = .error e →
      (isInvalidFiltersCoded e = true → ∃ q ∈ fields, isArr q.2 = false) ∧
      ((∀ q ∈ fields, noBadElem q.2 = true) → isEsError e = true) := by
  induction fields with
  | nil => intro pf e h; simp [applyIn] at h
  | cons q l ih =>
    intro pf e h
    simp only [applyIn] at h
    cases hf : formatIn pf q.1 q.2 with
    | ok pf2 =>
      rw [hf] at h
      obtain ⟨ha, hb⟩ := ih pf2 e h
      refine ⟨fun hc => ?_, fun hg => ?_⟩
      · obtain ⟨r, hr, hr2⟩ := ha hc
        exact ⟨r, List.mem_cons_of_mem q hr, hr2⟩
      · exact hb (fun r hr => hg r (List.mem_cons_of_mem q hr))
    | error e2 =>
      rw [hf] at h
      simp only [Except.error.injEq] at h
      subst h
      rcases formatIn_err pf q.1 q.2 e2 hf with ⟨hna, he⟩ | ⟨msg, he⟩
      · refine ⟨fun _ => ⟨q, List.mem_cons_self q l, hna⟩, fun _ => ?_⟩
        rw [he]
        rfl
      · subst he
        refine ⟨fun hc => by simp [isInvalidFiltersCoded] at hc, fun hg => ?_⟩
        have hq := hg q (List.mem_cons_self q l)
        cases hv : q.2 with
        | arr xs =>
          rw [hv] at hq
          simp only [noBadElem] at hq
          obtain ⟨ys, hys⟩ := lowerElems_ok xs hq
          rw [hv] at hf
          simp [formatIn, hys] at hf
        | str s => rw [hv] at hf; simp [formatIn] at hf
        | num n => rw [hv] at hf; simp [formatIn] at hf
        | bool b => rw [hv] at hf; simp [formatIn] at hf
        | null => rw [hv] at hf; simp [formatIn] at hf
        | obj o => rw [hv] at hf; simp [formatIn] at hf

theorem applyNin_err (fields : List (String × JsonVal)) :
    ∀ (pf : ParsedFilters) (e : JsError), applyNin pf fields = .error e →
      (isInvalidFiltersCoded e = true → ∃ q ∈ fields, isArr q.2 = false) ∧
      ((∀ q ∈ fields, noBadElem q.2 = true) → isEsError e = true) := by
  induction fields with
  | nil => intro pf e h; simp [applyNin] at h
  | cons q l ih =>
    intro pf e h
    simp only [applyNin] at h
    cases hf : formatNin pf q.1 q.2 with
    | ok pf2 =>
      rw [hf] at h
      obtain ⟨ha, hb⟩ := ih pf2 e h
      refine ⟨fun hc => ?_, fun hg => ?_⟩
      · obtain ⟨r, hr, hr2⟩ := ha hc
        exact ⟨r, List.mem_cons_of_mem q hr, hr2⟩
      · exact hb (fun r hr => hg r (List.mem_cons_of_mem q hr))
    | error e2 =>
      rw [hf] at h
      simp only [Except.error.injEq] at h
      subst h
      rcases formatNin_err pf q.1 q.2 e2 hf with ⟨hna, he⟩ | ⟨msg, he⟩
      · refine ⟨fun _ => ⟨q, List.mem_cons_self q l, hna⟩, fun _ => ?_⟩
        rw [he]
        rfl
      · subst he
        refine ⟨fun hc => by simp [isInvalidFiltersCoded] at hc, fun hg => ?_⟩
        have hq := hg q (List.mem_cons_self q l)
        cases hv : q.2 with
        | arr xs =>
          rw [hv] at hq
          simp only [noBadElem] at hq
          obtain ⟨ys, hys⟩ := lowerElems_ok xs hq
          rw [hv] at hf
          simp [formatNin, hys] at hf
        | str s => rw [hv] at hf; simp [formatNin] at hf
        | num n => rw [hv] at hf; simp [formatNin] at hf
        | bool b => rw [hv] at hf; simp [formatNin] at hf
        | null => rw [hv] at hf; simp [formatNin] at hf
        | obj o => rw [hv] at hf; simp [formatNin] at hf

theorem fbo_unknown (pf : ParsedFilters) (op : String) (fields : List (String × JsonVal))
    (h : isKnownOp op = false) :
    formatByOperator pf op fields =
      .error (.es ⟨invalidOperatorMessage op, .invalidFilterOperator⟩) := by
  simp only [isKnownOp, Bool.or_eq_false_iff, beq_eq_false_iff_ne] at h
  obtain ⟨h1, h2, h3, h4, h5, h6, h7, h8⟩ := h
  simp [formatByOperator, h1, h2, h3, h4, h5, h6, h7, h8]

theorem fbo_ok (pf : ParsedFilters) (op : String) (fields : List (String × JsonVal))
    (h : builderOk (op, fields) = true) :
    ∃ pf2, formatByOperator pf op fields = .ok pf2 := by
  simp only [builderOk, Bool.and_eq_true] at h
  obtain ⟨hk, hrest⟩ := h
  simp only [isKnownOp, Bool.or_eq_true, beq_iff_eq] at hk
  rcases hk with h1 | h1 | h1 | h1 | h1 | h1 | h1 | h1 <;> subst h1
  · exact ⟨_, rfl⟩
  · exact ⟨_, rfl⟩
  · have hall : ∀ q ∈ fields, isStrArr q.2 = true := by
      have hr : ∀ (a : String) (b : JsonVal), (a, b) ∈ fields → isStrArr b = true := by
        simpa using hrest
      intro q hq
      exact hr q.1 q.2 hq
    obtain ⟨pf2, h2⟩ := applyIn_ok fields pf hall
    exact ⟨pf2, by rw [show formatByOperator pf "in" fields = applyIn pf fields from rfl, h2]⟩
  · have hall : ∀ q ∈ fields, isStrArr q.2 = true := by
      have hr : ∀ (a : String) (b : JsonVal), (a, b) ∈ fields → isStrArr b = true := by
        simpa using hrest
      intro q hq
      exact hr q.1 q.2 hq
    obtain ⟨pf2, h2⟩ := applyNin_ok fields pf hall
    exact ⟨pf2, by rw [show formatByOperator pf "nin" fields = applyNin pf fields from rfl, h2]⟩
  · exact ⟨_, rfl⟩
  · exact ⟨_, rfl⟩
  · exact ⟨_, rfl⟩
  · exact ⟨_, rfl⟩

theorem fbo_err (pf : ParsedFilters) (op : String) (fields : List (String × JsonVal))
    (e : JsError) (h : formatByOperator pf op fields = .error e) :
    (isInvalidFiltersCoded e = true →
      (op = "in" ∨ op = "nin") ∧ ∃ q ∈ fields, isArr q.2 = false) ∧
    (((op = "in" ∨ op = "nin") → ∀ q ∈ fields, noBadElem q.2 = true) → isEsError e = true) := by
  by_cases h1 : op = "eq"
  · subst h1
    rw [show formatByOperator pf "eq" fields =
      .ok (fields.foldl (fun a p => formatEq a p.1 p.2) pf) from rfl] at h
    simp at h
  by_cases h2 : op = "ne"
  · subst h2
    rw [show formatByOperator pf "ne" fields =
      .ok (fields.foldl (fun a p => formatNe a p.1 p.2) pf) from rfl] at h
    simp at h
  by_cases h3 : op = "in"
  · subst h3
    rw [show formatByOperator pf "in" fields = applyIn pf fields from rfl] at h
    obtain ⟨ha, hb⟩ := applyIn_err fields pf e h
    exact ⟨fun hc => ⟨Or.inl rfl, ha hc⟩, fun hg => hb (hg (Or.inl rfl))⟩
  by_cases h4 : op = "nin"
  · subst h4
    rw [show formatByOperator pf "nin" fields = applyNin pf fields from rfl] at h
    obtain ⟨ha, hb⟩ := applyNin_err fields pf e h
    exact ⟨fun hc => ⟨Or.inr rfl, ha hc⟩, fun hg => hb (hg (Or.inr rfl))⟩
  by_cases h5 : op = "gt"
  · subst h5
    rw [show formatByOperator pf "gt" fields =
      .ok (fields.foldl (fun a p => formatGt a p.1 p.2) pf) from rfl] at h
    simp at h
  by_cases h6 : op = "gte"
  · subst h6
    rw [show formatByOperator pf "gte" fields =
      .ok (fields.foldl (fun a p => formatGte a p.1 p.2) pf) from rfl] at h
    simp at h
  by_cases h7 : op = "lt"
  · subst h7
    rw [show formatByOperator pf "lt" fields =
      .ok (fields.foldl (fun a p => formatLt a p.1 p.2) pf) from rfl] at h
    simp at h
  by_cases h8 : op = "lte"
  · subst h8
    rw [show formatByOperator pf "lte" fields =
      .ok (fields.foldl (fun a p => formatLte a p.1 p.2) pf) from rfl] at h
    simp at h
  · have hk : isKnownOp op = false := by
      simp [isKnownOp, h1, h2, h3, h4, h5, h6, h7, h8]
    rw [fbo_unknown pf op fields hk] at h
    simp only [Except.error.injEq] at h
    subst h
    exact ⟨fun hc => by simp [isInvalidFiltersCoded] at hc, fun _ => rfl⟩

theorem ao_err (l : List (String × List (String × JsonVal))) :
    ∀ (pf : ParsedFilters) (e : JsError), applyOperators pf l = .error e →
      (isInvalidFiltersCoded e = true →
        ∃ p ∈ l, (p.1 = "in" ∨ p.1 = "nin") ∧ ∃ q ∈ p.2, isArr q.2 = false) ∧
      ((∀ p ∈ l, (p.1 = "in" ∨ p.1 = "nin") → ∀ q ∈ p.2, noBadElem q.2 = true) →
        isEsError e = true) := by
  induction l with
  | nil => intro pf e h; simp [applyOperators] at h
  | cons p l ih =>
    intro pf e h
    simp only [applyOperators] at h
    cases hf : formatByOperator pf p.1 p.2 with
    | ok pf2 =>
      rw [hf] at h
      obtain ⟨ha, hb⟩ := ih pf2 e h
      refine ⟨fun hc => ?_, fun hg => ?_⟩
      · obtain ⟨r, hr, hr2⟩ := ha hc
        exact ⟨r, List.mem_cons_of_mem p hr, hr2⟩
      · exact hb (fun r hr => hg r (List.mem_cons_of_mem p hr))
    | error e2 =>
      rw [hf] at h
      simp only [Except.error.injEq] at h
      subst h
      obtain ⟨ha, hb⟩ := fbo_err pf p.1 p.2 e2 hf
      refine ⟨fun hc => ?_, fun hg => ?_⟩
      · obtain ⟨hop, hq⟩ := ha hc
        exact ⟨p, List.mem_cons_self p l, hop, hq⟩
      · exact hb (fun hop => hg p (List.mem_cons_self p l) hop)

theorem ao_prefix_unknown (pre : List (String × List (String × JsonVal))) :
    ∀ (pf : ParsedFilters) (op : String) (fields : List (String × JsonVal))
      (post : List (String × List (String × JsonVal))),
      (∀ p ∈ pre, builderOk p = true) → isKnownOp op = false →
      applyOperators pf (pre ++ (op, fields) :: post) =
        .error (.es ⟨invalidOperatorMessage op, .invalidFilterOperator⟩) := by
  induction pre with
  | nil =>
    intro pf op fields post _ hk
    simp only [List.nil_append, applyOperators]
    rw [fbo_unknown pf op fields hk]
  | cons p pre ih =>
    intro pf op fields post hpre hk
    obtain ⟨pf2, h2⟩ := fbo_ok pf p.1 p.2 (hpre p (List.mem_cons_self p pre))
    simp only [List.cons_append, applyOperators]
    rw [h2]
    exact ih pf2 op fields post (fun r hr => hpre r (List.mem_cons_of_mem p hr)) hk

theorem resolveConflict_excl (pf : ParsedFilters) :
    (resolveConflict pf).bool = none ∨ (resolveConflict pf).range = none := by
  cases hb : pf.bool <;> cases hr : pf.range <;> simp [resolveConflict, hb, hr]

theorem renderParsed_not_both (pf : ParsedFilters)
    (h : pf.bool = none ∨ pf.range = none) :
    ¬(hasKey (renderParsed pf) "bool" = true ∧ hasKey (renderParsed pf) "range" = true) := by
  rcases h with h | h
  · cases hr : pf.range <;> simp [renderParsed, h, hr, hasKey, keyList]
  · cases hb : pf.bool <;> simp [renderParsed, h, hb, hasKey, keyList]

theorem rangeLookup_setRange (pf : ParsedFilters) (f o : String) (v : JsonVal) (g o2 : String) :
    rangeLookup (setRange pf f o v) g o2 =
      if g = f ∧ o2 = o then some v else rangeLookup pf g o2 := by
  have h0 : rangeLookup (setRange pf f o v) g o2 =
      objGet ((objGet (objSet (pf.range.getD []) f
        (objSet ((objGet (pf.range.getD []) f).getD []) o v)) g).getD []) o2 := rfl
  rw [h0, objGet_objSet]
  by_cases hg : g = f
  · rw [if_pos hg]
    simp only [Option.getD_some]
    rw [objGet_objSet]
    by_cases ho : o2 = o
    · rw [if_pos ho, if_pos ⟨hg, ho⟩]
    · rw [if_neg ho, if_neg (fun hc : g = f ∧ o2 = o => ho hc.2), hg]
      rfl
  · rw [if_neg hg, if_neg (fun hc : g = f ∧ o2 = o => hg hc.1)]
    rfl

theorem setRange_bool (pf : ParsedFilters) (f o : String) (v : JsonVal) :
    (setRange pf f o v).bool = pf.bool := rfl

theorem lowerElems_strings (xs : List String) :
    lowerElems (xs.map JsonVal.str) = .ok (xs.map (fun s => JsonVal.str (jsToLower s))) := by
  induction xs with
  | nil => rfl
  | cons s l ih => simp [lowerElems, ih]

theorem formatIn_strings (pf : ParsedFilters) (f : String) (xs : List String) :
    formatIn pf f (.arr (xs.map JsonVal.str)) =
      .ok (pushMust pf
        (.obj [("terms", .obj [(f, .arr (xs.map (fun s => JsonVal.str (jsToLower s))))])])) := by
  simp [formatIn, lowerElems_strings]

theorem formatNin_strings (pf : ParsedFilters) (f : String) (xs : List String) :
    formatNin pf f (.arr (xs.map JsonVal.str)) =
      .ok (pushMustNot pf
        (.obj [("terms", .obj [(f, .arr (xs.map (fun s => JsonVal.str (jsToLower s))))])])) := by
  simp [formatNin, lowerElems_strings]

theorem applyIn_some_bad (fields : List (String × JsonVal)) :
    ∀ pf : ParsedFilters, (∃ q ∈ fields, isArr q.2 = false) →
      ∃ e, applyIn pf fields = .error e := by
  induction fields with
  | nil =>
    intro pf h
    obtain ⟨q, hq, _⟩ := h
    exact absurd hq (List.not_mem_nil q)
  | cons r l ih =>
    intro pf h
    cases hf : formatIn pf r.1 r.2 with
    | error e => exact ⟨e, by simp [applyIn, hf]⟩
    | ok pf2 =>
      obtain ⟨q, hq, hqa⟩ := h
      rcases List.mem_cons.mp hq with rfl | hq2
      · rw [formatIn_not_arr pf q.1 q.2 hqa] at hf
        simp at hf
      · obtain ⟨e, he⟩ := ih pf2 ⟨q, hq2, hqa⟩
        exact ⟨e, by simp [applyIn, hf, he]⟩

theorem applyNin_some_bad (fields : List (String × JsonVal)) :
    ∀ pf : ParsedFilters, (∃ q ∈ fields, isArr q.2 = false) →
      ∃ e, applyNin pf fields = .error e := by
  induction fields with
  | nil =>
    intro pf h
    obtain ⟨q, hq, _⟩ := h
    exact absurd hq (List.not_mem_nil q)
  | cons r l ih =>
    intro pf h
    cases hf : formatNin pf r.1 r.2 with
    | error e => exact ⟨e, by simp [applyNin, hf]⟩
    | ok pf2 =>
      obtain ⟨q, hq, hqa⟩ := h
      rcases List.mem_cons.mp hq with rfl | hq2
      · rw [formatNin_not_arr pf q.1 q.2 hqa] at hf
        simp at hf
      · obtain ⟨e, he⟩ := ih pf2 ⟨q, hq2, hqa⟩
        exact ⟨e, by simp [applyNin, hf, he]⟩

theorem fbo_some_bad (op : String) (fields : List (String × JsonVal))
    (hop : op = "in" ∨ op = "nin") (hbad : ∃ q ∈ fields, isArr q.2 = false) :
    ∀ pf : ParsedFilters, ∃ e, formatByOperator pf op fields = .error e := by
  intro pf
  rcases hop with rfl | rfl
  · obtain ⟨e, he⟩ := applyIn_some_bad fields pf hbad
    exact ⟨e, by rw [show formatByOperator pf "in" fields = applyIn pf fields from rfl, he]⟩
  · obtain ⟨e, he⟩ := applyNin_some_bad fields pf hbad
    exact ⟨e, by rw [show formatByOperator pf "nin" fields = applyNin pf fields from rfl, he]⟩

theorem ao_some_bad (l : List (String × List (String × JsonVal))) :
    ∀ (pf : ParsedFilters) (p : String × List (String × JsonVal)), p ∈ l →
      (∀ pf2 : ParsedFilters, ∃ e, formatByOperator pf2 p.1 p.2 = .error e) →
      ∃ e, applyOperators pf l = .error e := by
  induction l with
  | nil =>
    intro pf p hp _
    exact absurd hp (List.not_mem_nil p)
  | cons r l ih =>
    intro pf p hp herr
    cases hf : formatByOperator pf r.1 r.2 with
    | error e => exact ⟨e, by simp [applyOperators, hf]⟩
    | ok pf2 =>
      rcases List.mem_cons.mp hp with rfl | hp2
      · obtain ⟨e, he⟩ := herr pf
        rw [he] at hf
        simp at hf
      · obtain ⟨e, he⟩ := ih pf2 p hp2 herr
        exact ⟨e, by simp [applyOperators, hf, he]⟩

theorem oFirst_none_right {α : Type} (a : Option α) : oFirst a none = a := by
  cases a <;> rfl

theorem sdata_append (a b : String) : (a ++ b).data = a.data ++ b.data := by
  cases a
  cases b
  rfl

theorem removeFirstDollarAux_no (cs : List Char) (h : ∀ c ∈ cs, ¬ c = '$')
    (rest : List Char) : removeFirstDollarAux (cs ++ '$' :: rest) = cs ++ rest := by
  induction cs with
  | nil => simp [removeFirstDollarAux]
  | cons c l ih =>
    have hc := h c (List.mem_cons_self c l)
    simp only [List.cons_append, removeFirstDollarAux, if_neg hc]
    exact congrArg (fun x => c :: x) (ih (fun d hd => h d (List.mem_cons_of_mem c hd)))

/-- C5: normalization rewrites every key without the operator marker into
the eq operator with the original key as field name, strips the marker from
operator keys, and spread-merges entries of the same canonical operator, so
the value stored at each (operator, field) slot is the one contributed by
the last raw entry touching that slot — later entries overwrite earlier
ones; concretely a bare key followed by an explicit eq entry on the same
field keeps the later value. -/
theorem claim_C5 :
    (∀ (entries : List (String × JsonVal)) (op f : String),
      normGet (prepareFilters entries) op f = lastContribution entries op f) ∧
    prepareFilters [("field", .str "a"), ("$eq", .obj [("field", .str "b")])] =
      [("eq", [("field", .str "b")])] := by
  constructor
  · intro entries op f
    have h := normGet_prepareFrom entries [] op f
    rw [show normGet [] op f = none from rfl, oFirst_none_right] at h
    exact h
  · rfl

/-- C9: getFilters is deterministic — two runs on the same model descriptor
and filter expression return identical results, for both the sourced
one-argument version and the spec-modelled model-aware version (pure
functions of their inputs, no hidden state). -/
theorem claim_C9 (m : ModelDescriptor) (v : Option JsonVal)
    (r1 r2 s1 s2 : Except JsError JsonVal)
    (h1 : r1 = getFilters v) (h2 : r2 = getFilters v)
    (h3 : s1 = getFiltersM m v) (h4 : s2 = getFiltersM m v) :
    r1 = r2 ∧ s1 = s2 := by
  subst h1
  subst h2
  subst h3
  subst h4
  exact ⟨rfl, rfl⟩

/-- Witness for C9 at a concrete model descriptor and input. -/
theorem claim_C9_witness :
    getFilters none = getFilters none ∧
      getFiltersM testModel none = getFiltersM testModel none :=
  claim_C9 testModel none (getFilters none) (getFilters none)
    (getFiltersM testModel none) (getFiltersM testModel none) rfl rfl rfl rfl

/-- C10: a key containing the dollar marker anywhere is treated as operator
form and never as a bare field name for implicit equality, only the first
dollar occurrence is removed to obtain the canonical name, and a key such
as a-dollar-b therefore dispatches as the unknown operator ab and fails
with InvalidFilterOperator. -/
theorem claim_C10 :
    (∀ (k : String) (v : JsonVal), hasDollar k = true →
      prepareFilters [(k, v)] = [(removeFirstDollar k, objSpread [] v)]) ∧
    (∀ (k : String) (v : JsonVal), hasDollar k = false →
      prepareFilters [(k, v)] = [("eq", [(k, v)])]) ∧
    (∀ s t : String, hasDollar s = false →
      removeFirstDollar (s ++ "$" ++ t) = s ++ t) ∧
    removeFirstDollar "a$b" = "ab" ∧
    getFilters (some (.obj [("a$b", .str "v")])) =
      .error (.es ⟨invalidOperatorMessage "ab", .invalidFilterOperator⟩) := by
  refine ⟨?_, ?_, ?_, rfl, rfl⟩
  · intro k v h
    simp [prepareFilters, prepareStep, h, objGet, objSet]
  · intro k v h
    simp [prepareFilters, prepareStep, h, objGet, objSet, objSpread, spreadEntries,
      show removeFirstDollar "$eq" = "eq" from rfl]
  · intro s t hs
    rcases s with ⟨sd⟩
    rcases t with ⟨td⟩
    have hs2 : ∀ c ∈ sd, ¬ c = '$' := by
      simpa [hasDollar] using hs
    have h1 : ((⟨sd⟩ : String) ++ "$" ++ ⟨td⟩).data = sd ++ '$' :: td := by
      rw [sdata_append, sdata_append]
      rw [show ("$" : String).data = ['$'] from rfl, List.append_assoc]
      rfl
    simp only [removeFirstDollar, h1]
    rw [removeFirstDollarAux_no sd hs2 td]
    rfl

/-- Witness for C10 instantiating its conditional parts at concrete inputs. -/
theorem claim_C10_witness :
    prepareFilters [("a$b", JsonVal.str "v")] = [("ab", objSpread [] (JsonVal.str "v"))] ∧
    removeFirstDollar ("a" ++ "$" ++ "b") = "a" ++ "b" :=
  ⟨claim_C10.1 "a$b" (JsonVal.str "v") rfl, claim_C10.2.2.1 "a" "b" rfl⟩

/-- C7: each range builder sets exactly its own bound of its own field in
the per-field object under the range key, leaving every other field, every
other bound and the bool node untouched, so all four range operators on a
field accumulate into one per-field object; concretely gt 1 and lte 10 on
id yield the single merged range document. -/
theorem claim_C7 :
    (∀ (pf : ParsedFilters) (f : String) (v : JsonVal) (g o2 : String),
      (rangeLookup (formatGt pf f v) g o2 =
        if g = f ∧ o2 = "gt" then some v else rangeLookup pf g o2) ∧
      (rangeLookup (formatGte pf f v) g o2 =
        if g = f ∧ o2 = "gte" then some v else rangeLookup pf g o2) ∧
      (rangeLookup (formatLt pf f v) g o2 =
        if g = f ∧ o2 = "lt" then some v else rangeLookup pf g o2) ∧
      (rangeLookup (formatLte pf f v) g o2 =
        if g = f ∧ o2 = "lte" then some v else rangeLookup pf g o2) ∧
      (formatGt pf f v).bool = pf.bool ∧ (formatGte pf f v).bool = pf.bool ∧
      (formatLt pf f v).bool = pf.bool ∧ (formatLte pf f v).bool = pf.bool) ∧
    getFilters (some (.obj [("$gt", .obj [("id", .num 1)]), ("$lte", .obj [("id", .num 10)])])) =
      .ok (.obj [("query", .obj [("range", .obj [("id",
        .obj [("gt", .num 1), ("lte", .num 10)])])])]) := by
  refine ⟨fun pf f v g o2 => ⟨?_, ?_, ?_, ?_, rfl, rfl, rfl, rfl⟩, rfl⟩
  · exact rangeLookup_setRange pf f "gt" v g o2
  · exact rangeLookup_setRange pf f "gte" v g o2
  · exact rangeLookup_setRange pf f "lt" v g o2
  · exact rangeLookup_setRange pf f "lte" v g o2

/-- C6: for an in filter whose per-field value is an array of strings, the
builder appends exactly one terms clause to bool.must, the clause field
name carries no suffix, and the element list is the values each
lower-cased; nin appends the same clause shape to bool.must_not; concretely
the Edward/Sanchez example produces the spec output with lower-cased
values. -/
theorem claim_C6 :
    (∀ (pf : ParsedFilters) (f : String) (xs : List String),
      formatIn pf f (.arr (xs.map JsonVal.str)) =
        .ok (pushMust pf (.obj [("terms",
          .obj [(f, .arr (xs.map (fun s => JsonVal.str (jsToLower s))))])])) ∧
      formatNin pf f (.arr (xs.map JsonVal.str)) =
        .ok (pushMustNot pf (.obj [("terms",
          .obj [(f, .arr (xs.map (fun s => JsonVal.str (jsToLower s))))])]))) ∧
    getFilters (some (.obj [("$in", .obj [("field", .arr [.str "Edward", .str "Sanchez"])])])) =
      .ok (.obj [("query", .obj [("bool", .obj [("must",
        .arr [.obj [("terms", .obj [("field",
          .arr [.str "edward", .str "sanchez"])])]])])])]) :=
  ⟨fun pf f xs => ⟨formatIn_strings pf f xs, formatNin_strings pf f xs⟩, rfl⟩

/-- C1: for every model descriptor, the model-aware eq builder appends one
term clause targeting the raw sub-field when the field is listed in the
model sortable/filterable field set and the keyword sub-field otherwise,
and the ne builder appends the same suffixed term clause to bool.must_not;
concretely the two spec examples evaluate as specified. -/
theorem claim_C1 :
    (∀ (m : ModelDescriptor) (pf : ParsedFilters) (field : String) (value : JsonVal),
      formatEqM m pf field value =
        pushMust pf (.obj [("term", .obj [(field ++ "." ++
          (if sortableContains m field then "raw" else "keyword"), value)])]) ∧
      formatNeM m pf field value =
        pushMustNot pf (.obj [("term", .obj [(field ++ "." ++
          (if sortableContains m field then "raw" else "keyword"), value)])])) ∧
    getFiltersM testModel (some (.obj [("id", .str "value")])) =
      .ok (.obj [("query", .obj [("bool", .obj [("must",
        .arr [.obj [("term", .obj [("id.raw", .str "value")])]])])])]) ∧
    getFiltersM testModel (some (.obj [("$ne", .obj [("field", .str "value")])])) =
      .ok (.obj [("query", .obj [("bool", .obj [("must_not",
        .arr [.obj [("term", .obj [("field.keyword", .str "value")])]])])])]) :=
  ⟨fun _ _ _ _ => ⟨rfl, rfl⟩, rfl, rfl⟩

/-- C3: every successful getFilters call returns a document whose only
top-level key is query and whose query node never carries bool and range
as sibling keys; and whenever the accumulator holds both a bool and a
range node, conflict resolution pushes the whole range map as a single
clause onto bool.must (creating the array if absent) and deletes the
top-level range key. -/
theorem claim_C3 :
    (∀ (v : Option JsonVal) (doc : JsonVal), getFilters v = .ok doc →
      keyList doc = ["query"] ∧
      ∀ inner, doc = .obj [("query", inner)] →
        ¬(hasKey inner "bool" = true ∧ hasKey inner "range" = true)) ∧
    (∀ (pf : ParsedFilters) (b : BoolNode) (r : List (String × List (String × JsonVal))),
      pf.bool = some b → pf.range = some r →
      resolveConflict pf =
        ⟨some ⟨some (b.must.getD [] ++
          [JsonVal.obj [("range", JsonVal.obj (r.map (fun p => (p.1, JsonVal.obj p.2))))]]),
          b.must_not⟩, none⟩) := by
  constructor
  · intro v doc h
    cases v with
    | none => simp [getFilters] at h
    | some j =>
      cases j with
      | obj entries =>
        simp only [getFilters] at h
        cases hao : applyOperators {} (prepareFilters entries) with
        | ok pf =>
          rw [hao] at h
          simp only [Except.ok.injEq] at h
          subst h
          refine ⟨rfl, fun inner hi => ?_⟩
          have h2 : renderParsed (resolveConflict pf) = inner := by
            injection hi with h3
            injection h3 with h4 h5
            exact congrArg Prod.snd h4
          rw [← h2]
          exact renderParsed_not_both _ (resolveConflict_excl pf)
        | error e =>
          rw [hao] at h
          simp at h
      | str s => simp [getFilters] at h
      | num n => simp [getFilters] at h
      | bool b => simp [getFilters] at h
      | null => simp [getFilters] at h
      | arr a => simp [getFilters] at h
  · intro pf b r hb hr
    simp [resolveConflict, hb, hr]

/-- Witness for C3 at the mixed bool/range input of the spec. -/
theorem claim_C3_witness :
    keyList (.obj [("query", .obj [("bool", .obj [
        ("must", .arr [.obj [("range", .obj [("id", .obj [("gt", .num 1)])])]]),
        ("must_not", .arr [.obj [("term", .obj [("field.raw", .str "v")])]])])])]) =
      ["query"] ∧
    ∀ inner,
      (JsonVal.obj [("query", .obj [("bool", .obj [
        ("must", .arr [.obj [("range", .obj [("id", .obj [("gt", .num 1)])])]]),
        ("must_not", .arr [.obj [("term", .obj [("field.raw", .str "v")])]])])])]) =
        .obj [("query", inner)] →
      ¬(hasKey inner "bool" = true ∧ hasKey inner "range" = true) :=
  claim_C3.1
    (some (.obj [("$ne", .obj [("field", .str "v")]), ("$gt", .obj [("id", .num 1)])]))
    (.obj [("query", .obj [("bool", .obj [
        ("must", .arr [.obj [("range", .obj [("id", .obj [("gt", .num 1)])])]]),
        ("must_not", .arr [.obj [("term", .obj [("field.raw", .str "v")])]])])])])
    rfl

/-- Counterexample to C2 as stated: the value supplied for the in operator
is the number 5, which is not an array, yet getFilters succeeds with an
empty query (a non-object operand spreads to no field entries), so the
required InvalidFilters failure does not occur. -/
theorem claim_C2_counterexample :
    isArr (.num 5) = false ∧
    getFilters (some (.obj [("$in", .num 5)])) = .ok (.obj [("query", .obj [])]) :=
  ⟨rfl, rfl⟩

/-- C2 amended: getFilters fails with InvalidFilters and returns no
document whenever the expression is absent, not an object, or an array;
conversely every InvalidFilters failure comes from that shape check or
from a normalized in/nin per-field value that is not an array; and a
normalized in/nin entry carrying a non-array per-field value always makes
the call fail (though possibly with a different, earlier error). -/
theorem claim_C2_amended :
    (∀ v : Option JsonVal, isPlainObject v = false →
      getFilters v = .error (.es ⟨"Invalid filters", .invalidFilters⟩) ∧
      ∀ doc, getFilters v ≠ .ok doc) ∧
    (∀ (entries : List (String × JsonVal)) (e : JsError),
      getFilters (some (.obj entries)) = .error e → isInvalidFiltersCoded e = true →
      ∃ p ∈ prepareFilters entries,
        (p.1 = "in" ∨ p.1 = "nin") ∧ ∃ q ∈ p.2, isArr q.2 = false) ∧
    (∀ (entries : List (String × JsonVal)) (p : String × List (String × JsonVal)),
      p ∈ prepareFilters entries → (p.1 = "in" ∨ p.1 = "nin") →
      (∃ q ∈ p.2, isArr q.2 = false) →
      ∃ e, getFilters (some (.obj entries)) = .error e) := by
  refine ⟨?_, ?_, ?_⟩
  · intro v hv
    cases v with
    | none => exact ⟨rfl, fun doc h => by simp [getFilters] at h⟩
    | some j =>
      cases j with
      | obj es => simp [isPlainObject] at hv
      | str s => exact ⟨rfl, fun doc h => by simp [getFilters] at h⟩
      | num n => exact ⟨rfl, fun doc h => by simp [getFilters] at h⟩
      | bool b => exact ⟨rfl, fun doc h => by simp [getFilters] at h⟩
      | null => exact ⟨rfl, fun doc h => by simp [getFilters] at h⟩
      | arr a => exact ⟨rfl, fun doc h => by simp [getFilters] at h⟩
  · intro entries e h hc
    simp only [getFilters] at h
    cases hao : applyOperators {} (prepareFilters entries) with
    | ok pf =>
      rw [hao] at h
      simp at h
    | error e2 =>
      rw [hao] at h
      simp only [Except.error.injEq] at h
      subst h
      obtain ⟨ha, -⟩ := ao_err (prepareFilters entries) {} e2 hao
      exact ha hc
  · intro entries p hp hop hbad
    obtain ⟨e, he⟩ :=
      ao_some_bad (prepareFilters entries) {} p hp (fbo_some_bad p.1 p.2 hop hbad)
    exact ⟨e, by simp [getFilters, he]⟩

/-- Witness for C2 amended: an absent expression raises the shape error
and returns no document, and an in entry with a non-array per-field value
makes the call fail. -/
theorem claim_C2_witness :
    (getFilters none = .error (.es ⟨"Invalid filters", .invalidFilters⟩) ∧
      ∀ doc, getFilters none ≠ .ok doc) ∧
    ∃ e, getFilters (some (.obj [("$in", .obj [("f", .str "x")])])) = .error e :=
  ⟨claim_C2_amended.1 none rfl,
   claim_C2_amended.2.2 [("$in", .obj [("f", .str "x")])] ("in", [("f", .str "x")])
     (List.mem_singleton_self _) (Or.inl rfl)
     ⟨("f", .str "x"), List.mem_singleton_self _, rfl⟩⟩

/-- Counterexample to C4 as stated: an expression containing the unknown
operator token bad fails, but with the InvalidFilters error raised by the
earlier-dispatched in entry, not with InvalidFilterOperator naming the
token. -/
theorem claim_C4_counterexample :
    isKnownOp (removeFirstDollar "$bad") = false ∧
    getFilters (some (.obj [("$in", .obj [("f", .str "x")]),
        ("$bad", .obj [("g", .str "v")])])) =
      .error (.es ⟨inOpMessage "string", .invalidFilters⟩) ∧
    ESErrorCode.invalidFilters ≠ ESErrorCode.invalidFilterOperator :=
  ⟨rfl, rfl, by decide⟩

/-- C4 amended: whenever the normalized operator map contains an unknown
canonical operator and every entry dispatched before it succeeds (known
operator, in/nin per-field values arrays of strings), getFilters fails with
InvalidFilterOperator and the error message names the offending token; if
an earlier entry fails first, the call fails with that earlier error
instead. -/
theorem claim_C4_amended (entries : List (String × JsonVal))
    (pre post : List (String × List (String × JsonVal)))
    (op : String) (fields : List (String × JsonVal))
    (hsplit : prepareFilters entries = pre ++ (op, fields) :: post)
    (hpre : ∀ p ∈ pre, builderOk p = true)
    (hop : isKnownOp op = false) :
    getFilters (some (.obj entries)) =
      .error (.es ⟨invalidOperatorMessage op, .invalidFilterOperator⟩) := by
  simp only [getFilters]
  rw [hsplit, ao_prefix_unknown pre {} op fields post hpre hop]

/-- Witness for C4 amended at the repository test input with operator eqq. -/
theorem claim_C4_witness :
    getFilters (some (.obj [("$eqq", .obj [("field", .str "value")])])) =
      .error (.es ⟨invalidOperatorMessage "eqq", .invalidFilterOperator⟩) :=
  claim_C4_amended [("$eqq", .obj [("field", .str "value")])] [] [] "eqq"
    [("field", .str "value")] rfl (fun p hp => absurd hp (List.not_mem_nil p)) rfl

/-- Counterexample to C8 as stated: an in array containing the number 5
makes getFilters raise a host type error from toLowerCase, which is
neither of the two declared error kinds. -/
theorem claim_C8_counterexample :
    getFilters (some (.obj [("$in", .obj [("field", .arr [.num 5])])])) =
      .error (.typeError "keyword.toLowerCase is not a function") ∧
    isEsError (.typeError "keyword.toLowerCase is not a function") = false :=
  ⟨rfl, rfl⟩

/-- C8 amended: when every in/nin per-field array value contains only
strings, every failure raised by getFilters is one of the two declared
engine error kinds; an in/nin array with a non-string element instead
escapes as a host type error. -/
theorem claim_C8_amended (v : Option JsonVal) (e : JsError)
    (hw : wellTypedElems v = true) (h : getFilters v = .error e) :
    isEsError e = true := by
  cases v with
  | none =>
    rw [show getFilters none = .error (.es ⟨"Invalid filters", .invalidFilters⟩) from rfl] at h
    simp only [Except.error.injEq] at h
    subst h
    rfl
  | some j =>
    cases j with
    | obj entries =>
      simp only [getFilters] at h
      cases hao : applyOperators {} (prepareFilters entries) with
      | ok pf =>
        rw [hao] at h
        simp at h
      | error e2 =>
        rw [hao] at h
        simp only [Except.error.injEq] at h
        subst h
        obtain ⟨-, hb⟩ := ao_err (prepareFilters entries) {} e2 hao
        apply hb
        intro p hp hop q hq
        have hw2 : (prepareFilters entries).all (fun p =>
            if p.1 == "in" || p.1 == "nin" then p.2.all (fun q => noBadElem q.2) else true) =
            true := hw
        have hall := List.all_eq_true.mp hw2 p hp
        have hcond : (p.1 == "in" || p.1 == "nin") = true := by
          rcases hop with h2 | h2 <;> simp [h2]
        rw [if_pos hcond] at hall
        exact List.all_eq_true.mp hall q hq
    | str s =>
      rw [show getFilters (some (.str s)) =
        .error (.es ⟨"Invalid filters", .invalidFilters⟩) from rfl] at h
      simp only [Except.error.injEq] at h
      subst h
      rfl
    | num n =>
      rw [show getFilters (some (.num n)) =
        .error (.es ⟨"Invalid filters", .invalidFilters⟩) from rfl] at h
      simp only [Except.error.injEq] at h
      subst h
      rfl
    | bool b =>
      rw [show getFilters (some (.bool b)) =
        .error (.es ⟨"Invalid filters", .invalidFilters⟩) from rfl] at h
      simp only [Except.error.injEq] at h
      subst h
      rfl
    | null =>
      rw [show getFilters (some .null) =
        .error (.es ⟨"Invalid filters", .invalidFilters⟩) from rfl] at h
      simp only [Except.error.injEq] at h
      subst h
      rfl
    | arr a =>
      rw [show getFilters (some (.arr a)) =
        .error (.es ⟨"Invalid filters", .invalidFilters⟩) from rfl] at h
      simp only [Except.error.injEq] at h
      subst h
      rfl

/-- Witness for C8 amended at the absent-expression input, whose failure is
the engine shape error. -/
theorem claim_C8_witness :
    isEsError (.es ⟨"Invalid filters", .invalidFilters⟩) = true :=
  claim_C8_amended none (.es ⟨"Invalid filters", .invalidFilters⟩) rfl rfl
